import Mathlib

/-!
Verification development for the snip selection-and-budget pipeline.

The Go sources are shallowly embedded:
* file bytes are `List Nat` (each entry a byte value),
* `internal/util`'s `FeedUTF8` incremental UTF-8 validator is ported together
  with the relevant fragment of Go's `unicode/utf8` package
  (`DecodeRune` / `FullRune` decision structure, the `first` table and accept
  ranges),
* `internal/budget`'s `readAndTruncateFile` streaming truncation engine is
  ported as an explicit state machine (`TruncSt`, one `stepByte` transition
  per input byte, a `finishTrunc` at end of input),
* `internal/budget`'s `BuildPlan` / `EnforceGlobalBudget` are ported with the
  filesystem as an explicit map `String → Option (List Nat)` (`none` models a
  stat/open/read failure) and the external renderer as a pure callback
  `Plan → String`,
* `internal/selector`'s slice membership logic is ported; the third-party
  `doublestar.Match` glob matcher (an external dependency, not part of this
  repository) is modelled from the spec's recursive-wildcard semantics.

Go's unstable `sort.Slice` / `sort.Strings` are modelled with the stable
`List.insertionSort`; the comparators are strict total orders on the keys that
the claims touch, so stability only fixes an order Go leaves unspecified.
The Go struct field `Partial` is named `PartialFlag` here.
-/

/-! ### Go `unicode/utf8` decision fragment, as used by `util.FeedUTF8` -/

/-- Go's `utf8.first` table: information byte for a leading byte. Low three
bits give the encoded size, the high nibble indexes the accept range; `0xF0`
marks ASCII and `0xF1` marks an invalid leading byte. -/
def utf8FirstInfo (b : Nat) : Nat :=
  if b ≤ 0x7F then 0xF0
  else if b ≤ 0xC1 then 0xF1
  else if b ≤ 0xDF then 0x02
  else if b = 0xE0 then 0x13
  else if b ≤ 0xEC then 0x03
  else if b = 0xED then 0x23
  else if b ≤ 0xEF then 0x03
  else if b = 0xF0 then 0x34
  else if b ≤ 0xF3 then 0x04
  else if b = 0xF4 then 0x44
  else 0xF1

/-- Lower bound of Go's `utf8.acceptRanges[i]` for the second byte. -/
def utf8AcceptLo (i : Nat) : Nat :=
  if i = 1 then 0xA0 else if i = 3 then 0x90 else 0x80

/-- Upper bound of Go's `utf8.acceptRanges[i]` for the second byte. -/
def utf8AcceptHi (i : Nat) : Nat :=
  if i = 2 then 0x9F else if i = 4 then 0x8F else 0xBF

/-- Decision structure of Go's `utf8.DecodeRune p`: `some k` when a rune is
decoded consuming `k` bytes, `none` when Go returns `(RuneError, 1)` (invalid
or incomplete input; `util.FeedUTF8` distinguishes the two via `FullRune`). -/
def decodeSize (p : List Nat) : Option Nat :=
  match p with
  | [] => none
  | b0 :: rest =>
    let x := utf8FirstInfo b0
    if 0xF0 ≤ x then
      if x = 0xF0 then some 1 else none
    else
      let sz := x % 8
      let lo := utf8AcceptLo (x / 16)
      let hi := utf8AcceptHi (x / 16)
      if p.length < sz then none
      else
        match rest with
        | [] => none
        | b1 :: rest2 =>
          if b1 < lo ∨ hi < b1 then none
          else if sz ≤ 2 then some 2
          else
            match rest2 with
            | [] => none
            | b2 :: rest3 =>
              if b2 < 0x80 ∨ 0xBF < b2 then none
              else if sz ≤ 3 then some 3
              else
                match rest3 with
                | [] => none
                | b3 :: _ =>
                  if b3 < 0x80 ∨ 0xBF < b3 then none else some 4

/-- Go's `utf8.FullRune p`: whether `p` begins with a full (possibly invalid)
UTF-8 encoding of a rune. -/
def fullRune (p : List Nat) : Bool :=
  match p with
  | [] => false
  | b0 :: rest =>
    let x := utf8FirstInfo b0
    if x % 8 ≤ p.length then true
    else
      match rest with
      | [] => false
      | b1 :: rest2 =>
        if b1 < utf8AcceptLo (x / 16) ∨ utf8AcceptHi (x / 16) < b1 then true
        else
          match rest2 with
          | [] => false
          | b2 :: _ => if b2 < 0x80 ∨ 0xBF < b2 then true else false

/-- Loop of `util.FeedUTF8` with explicit fuel. `decodeSize` consumes at
least one byte per iteration, so fuel equal to the buffer length suffices and
the fuel-exhausted branch is unreachable when started that way. -/
def feedUTF8Loop : Nat → List Nat → Bool × List Nat
  | _, [] => (true, [])
  | 0, buf => (true, buf)
  | fuel + 1, b0 :: rest =>
    match decodeSize (b0 :: rest) with
    | some sz => feedUTF8Loop fuel ((b0 :: rest).drop sz)
    | none =>
      if (b0 :: rest).length < 4 ∧ fullRune (b0 :: rest) = false then
        (true, b0 :: rest)
      else (false, [])

/-- Port of `util.FeedUTF8 buf`: incrementally validates UTF-8, returning
`(ok, tail)` where `tail` is an incomplete rune prefix to carry over. -/
def feedUTF8 (buf : List Nat) : Bool × List Nat := feedUTF8Loop buf.length buf

/-! ### Truncation engine (`budget.readAndTruncateFile`) -/

/-- State of the streaming truncation pass, mirroring the local variables of
`readAndTruncateFile`. -/
structure TruncSt where
  kept : List Nat
  origLines : Nat
  keptLines : Nat
  truncated : Bool
  seenAny : Bool
  lastByteWasNL : Bool
  lineBuf : List Nat
  keptByteCount : Nat
  validatorBuf : List Nat
  countOnly : Bool
  deriving Repr, DecidableEq

/-- Initial state of the streaming pass. -/
def initSt : TruncSt :=
  { kept := [], origLines := 0, keptLines := 0, truncated := false,
    seenAny := false, lastByteWasNL := false, lineBuf := [],
    keptByteCount := 0, validatorBuf := [], countOnly := false }

/-- Port of the `flushLine` closure of `readAndTruncateFile`. -/
def flushLine (maxLines maxBytes : Nat) (force : Bool) (s : TruncSt) : TruncSt :=
  if s.lineBuf.length = 0 ∧ force = false then s
  else
    let s1 := { s with origLines := s.origLines + 1 }
    let s2 :=
      if s1.keptLines < maxLines ∧ s1.keptByteCount + s1.lineBuf.length ≤ maxBytes then
        { s1 with kept := s1.kept ++ s1.lineBuf, keptLines := s1.keptLines + 1,
                  keptByteCount := s1.keptByteCount + s1.lineBuf.length }
      else { s1 with truncated := true }
    let s3 := { s2 with lineBuf := [] }
    if (maxLines ≤ s3.keptLines ∨ maxBytes ≤ s3.keptByteCount) ∧ s3.truncated then
      { s3 with countOnly := true }
    else s3

/-- The per-byte body of the read loop of `readAndTruncateFile`; `none`
models the `errInvalidUTF8` early return. -/
def stepByte (maxLines maxBytes : Nat) (s : TruncSt) (b : Nat) : Option TruncSt :=
  let s0 := { s with seenAny := true, lastByteWasNL := b == 10 }
  match feedUTF8 (s0.validatorBuf ++ [b]) with
  | (false, _) => none
  | (true, tail) =>
    let s1 := { s0 with validatorBuf := tail }
    if s1.countOnly then
      some (if b == 10 then { s1 with origLines := s1.origLines + 1 } else s1)
    else
      let s2 := { s1 with lineBuf := s1.lineBuf ++ [b] }
      if maxLines ≤ s2.keptLines ∨ maxBytes ≤ s2.keptByteCount then
        let s3 := { s2 with truncated := true, countOnly := true, lineBuf := [] }
        some (if b == 10 then { s3 with origLines := s3.origLines + 1 } else s3)
      else if b == 10 then some (flushLine maxLines maxBytes true s2)
      else some s2

/-- Run the read loop over a whole byte list. -/
def feedAll (maxLines maxBytes : Nat) (s : TruncSt) (bts : List Nat) :
    Option TruncSt :=
  bts.foldlM (stepByte maxLines maxBytes) s

/-- Byte-level output of the truncation engine. -/
structure TruncOut where
  origLines : Nat
  keptLines : Nat
  keptBytes : Nat
  truncated : Bool
  content : List Nat
  deriving Repr, DecidableEq

/-- Failure modes of `readAndTruncateFile`. -/
inductive RErr where
  | invalidUTF8
  | unreadable
  deriving Repr, DecidableEq

/-- UTF-8 bytes of a string of ASCII characters. -/
def asciiBytes (s : String) : List Nat := s.data.map Char.toNat

/-- Port of `util.NormalizeNewlines` on bytes: CRLF and CR become LF. -/
def normalizeNL : List Nat → List Nat
  | [] => []
  | [b] => if b = 13 then [10] else [b]
  | b :: c :: rest =>
    if b = 13 then
      if c = 10 then 10 :: normalizeNL rest else 10 :: normalizeNL (c :: rest)
    else b :: normalizeNL (c :: rest)

/-- Bytes of the per-file truncation marker
`… [TRUNCATED: original_lines=N kept_lines=M]` plus newline. -/
def markerBytes (orig kept : Nat) : List Nat :=
  [0xE2, 0x80, 0xA6] ++ asciiBytes " [TRUNCATED: original_lines=" ++
    asciiBytes (Nat.repr orig) ++ asciiBytes " kept_lines=" ++
    asciiBytes (Nat.repr kept) ++ asciiBytes "]" ++ [10]

/-- Handling of the final unterminated line of `readAndTruncateFile`: if the
input was nonempty and did not end with a newline, count or flush the final
line. -/
def finalState (maxLines maxBytes : Nat) (s : TruncSt) : TruncSt :=
  if s.seenAny = true ∧ s.lastByteWasNL = false then
    (if s.countOnly = true then { s with origLines := s.origLines + 1 }
     else flushLine maxLines maxBytes true s)
  else s

/-- End-of-input handling of `readAndTruncateFile`: trailing incomplete rune
check, final unterminated line, newline normalization, marker. -/
def finishTrunc (maxLines maxBytes : Nat) (s : TruncSt) : Except RErr TruncOut :=
  if s.validatorBuf ≠ [] then .error .invalidUTF8
  else
    let s1 := finalState maxLines maxBytes s
    let c0 := normalizeNL s1.kept
    let c1 :=
      if s1.truncated = true then c0 ++ markerBytes s1.origLines s1.keptLines
      else c0
    .ok { origLines := s1.origLines, keptLines := s1.keptLines,
          keptBytes := s1.kept.length, truncated := s1.truncated, content := c1 }

/-- The byte-level core of `readAndTruncateFile`: stream the bytes through the
state machine, then finish. -/
def truncateBytes (bts : List Nat) (maxLines maxBytes : Nat) :
    Except RErr TruncOut :=
  match feedAll maxLines maxBytes initSt bts with
  | none => .error .invalidUTF8
  | some s => finishTrunc maxLines maxBytes s

/-! ### Glob matching and slice membership (`internal/selector`) -/

/-- Split a character list into path segments on the slash character. -/
def splitSeg : List Char → List (List Char)
  | [] => [[]]
  | c :: rest =>
    match splitSeg rest with
    | [] => if c = '/' then [[], []] else [[c]]
    | seg :: segs => if c = '/' then [] :: seg :: segs else (c :: seg) :: segs

/-- Single-segment wildcard match with explicit fuel: `*` matches any run of
characters inside one segment, `?` matches one character. -/
def segMatchFuel : Nat → List Char → List Char → Bool
  | 0, _, _ => false
  | _ + 1, [], s => s.isEmpty
  | fuel + 1, '*' :: ps, s =>
    segMatchFuel fuel ps s ||
      (match s with
       | [] => false
       | _ :: srest => segMatchFuel fuel ('*' :: ps) srest)
  | fuel + 1, '?' :: ps, s =>
    (match s with
     | [] => false
     | _ :: srest => segMatchFuel fuel ps srest)
  | fuel + 1, c :: ps, s =>
    (match s with
     | [] => false
     | d :: srest => c = d && segMatchFuel fuel ps srest)

/-- Single-segment wildcard match (fuel instantiated large enough). -/
def segMatch (p s : List Char) : Bool :=
  segMatchFuel (p.length + s.length + 1) p s

/-- Multi-segment match with explicit fuel: a `**` segment matches zero or
more whole path segments. -/
def segsMatchFuel : Nat → List (List Char) → List (List Char) → Bool
  | 0, _, _ => false
  | _ + 1, [], ss => ss.isEmpty
  | fuel + 1, p :: ps, ss =>
    if p = ['*', '*'] then
      segsMatchFuel fuel ps ss ||
        (match ss with
         | [] => false
         | _ :: srest => segsMatchFuel fuel (p :: ps) srest)
    else
      match ss with
      | [] => false
      | s :: srest => segMatch p s && segsMatchFuel fuel ps srest

/-- Modelled from the spec: the glob matcher used by the selector is the
external `doublestar.Match` dependency (`github.com/bmatcuk/doublestar/v4`),
which is not code of this repository. Per the spec, globs use
recursive-wildcard semantics (`**` matches zero or more path segments)
evaluated against slash-normalized relative paths, and an invalid glob
pattern is treated as non-matching (this model has no failing patterns). -/
def globMatch (pat rel : String) : Bool :=
  let ps := splitSeg pat.data
  let ss := splitSeg rel.data
  segsMatchFuel (ps.length + ss.length + 1) ps ss

/-- Port of `selector.patternExplicitlyIncludesHidden`: the pattern contains
a path segment starting with a dot, other than the special segments dot and
dot-dot. -/
def patternExplicitlyIncludesHidden (pat : String) : Bool :=
  (splitSeg (pat.data.map (fun c => if c = '\\' then '/' else c))).any
    (fun seg =>
      decide (seg ≠ []) && (seg.head? == some '.') &&
        decide (seg ≠ ['.']) && decide (seg ≠ ['.', '.']))

/-- Port of `selector.matchesAny`: first component is whether some pattern
matched, second whether some matching pattern explicitly includes a hidden
segment. -/
def matchesAny (rel : String) (patterns : List String) : Bool × Bool :=
  patterns.foldl
    (fun acc pat =>
      if pat = "" then acc
      else if globMatch pat rel then
        (true, acc.2 || patternExplicitlyIncludesHidden pat)
      else acc)
    (false, false)

/-- Slice configuration as consumed by the selector (`config.SliceConfig`).
A missing map key in Go yields the zero value, so the slice map is modelled
as a total function into this structure. -/
structure SliceConfig where
  Include : List String
  Exclude : List String
  Priority : Int
  deriving Repr, DecidableEq

/-- Code-point-wise string order (how Go compares strings byte-wise; on
valid UTF-8 the byte order and the code-point order agree). -/
def charListLe : List Char → List Char → Bool
  | [], _ => true
  | _ :: _, [] => false
  | a :: as, b :: bs =>
    if a.toNat < b.toNat then true
    else if b.toNat < a.toNat then false
    else charListLe as bs

/-- String order as a proposition. -/
def strBefore (a b : String) : Prop := charListLe a.data b.data = true

instance : DecidableRel strBefore := fun a b =>
  inferInstanceAs (Decidable (charListLe a.data b.data = true))

/-- The body of the membership loop of `selector.membership` for one slice:
skip unless an include glob matches; skip a hidden path unless hidden files
are allowed or a matching include pattern explicitly targets a hidden
segment; skip when an exclude glob matches. -/
def sliceAccepts (slices : String → SliceConfig) (rel : String)
    (isHidden includeHidden : Bool) (s : String) : Bool :=
  let sl := slices s
  let im := matchesAny rel sl.Include
  if im.1 = false then false
  else if isHidden = true ∧ includeHidden = false ∧ im.2 = false then false
  else if (matchesAny rel sl.Exclude).1 = true then false
  else true

/-- Port of `selector.membership`: the sorted list of enabled slices the
relative path is a member of. -/
def membership (slices : String → SliceConfig) (enabled : List String)
    (rel : String) (isHidden includeHidden : Bool) : List String :=
  let mem := enabled.foldl
    (fun mem s =>
      if sliceAccepts slices rel isHidden includeHidden s then mem ++ [s]
      else mem)
    []
  mem.insertionSort strBefore

/-! ### Plans (`internal/budget`) -/

/-- Budget limits (`budget.Limits`). -/
structure Limits where
  MaxChars : Nat
  PerFileMaxLines : Nat
  PerFileMaxBytes : Nat
  deriving Repr, DecidableEq

/-- An included file with metadata and content (`budget.FileEntry`);
content is the byte list produced by the truncation engine. -/
structure FileEntry where
  RelPath : String
  AbsPath : String
  Slices : List String
  PrimarySlice : String
  Priority : Int
  OriginalLines : Nat
  OriginalBytes : Nat
  KeptLines : Nat
  KeptBytes : Nat
  Truncated : Bool
  Content : List Nat
  deriving Repr, DecidableEq

/-- A dropped/excluded file (`budget.DroppedEntry`). -/
structure DroppedEntry where
  RelPath : String
  Slices : List String
  PrimarySlice : String
  Reason : String
  Detail : String
  deriving Repr, DecidableEq

/-- A bundle plan (`budget.Plan`); the Go field `Partial` is named
`PartialFlag` here. -/
structure Plan where
  Profile : String
  EnabledSlices : List String
  Included : List FileEntry
  Dropped : List DroppedEntry
  DroppedSlices : List String
  PartialFlag : Bool
  HardCut : Bool
  deriving Repr, DecidableEq

/-- A file considered by selection (`selector.File`). -/
structure SelFile where
  RelPath : String
  AbsPath : String
  SizeBytes : Nat
  IsHidden : Bool
  Slices : List String
  PrimarySlice : String
  PrimaryPriority : Int
  Excluded : Bool
  ExclusionReason : String
  ExclusionDetail : String
  deriving Repr, DecidableEq

/-- Output of selection (`selector.Selected`). -/
structure Selected where
  Included : List SelFile
  Dropped : List SelFile
  deriving Repr, DecidableEq

/-- Ordering used by `orderPlan` on included entries: priority descending,
then relative path ascending (Go `sort.Slice` comparator). -/
def fileBefore (a b : FileEntry) : Prop :=
  b.Priority < a.Priority ∨
    (a.Priority = b.Priority ∧ strBefore a.RelPath b.RelPath)

instance : DecidableRel fileBefore := fun a b =>
  inferInstanceAs (Decidable (b.Priority < a.Priority ∨
    (a.Priority = b.Priority ∧ strBefore a.RelPath b.RelPath)))

/-- Ordering used by `orderPlan` on dropped entries: relative path
ascending. -/
def droppedBefore (a b : DroppedEntry) : Prop :=
  strBefore a.RelPath b.RelPath

instance : DecidableRel droppedBefore := fun a b =>
  inferInstanceAs (Decidable (strBefore a.RelPath b.RelPath))

/-- Port of `budget.orderPlan` (Go sorts in place with `sort.Slice`; the
stable `insertionSort` fixes an order Go leaves unspecified on ties). -/
def orderPlanF (p : Plan) : Plan :=
  { p with Included := p.Included.insertionSort fileBefore,
           Dropped := p.Dropped.insertionSort droppedBefore }

/-- Port of `budget.readAndTruncateFile`: the filesystem is an explicit map
from absolute path to bytes, `none` modelling any stat/open/read failure. -/
def readAndTruncateFile (fs : String → Option (List Nat)) (rel abs : String)
    (slices : List String) (primary : String) (priority : Int)
    (maxLines maxBytes : Nat) : Except RErr FileEntry :=
  match fs abs with
  | none => .error .unreadable
  | some bts =>
    match truncateBytes bts maxLines maxBytes with
    | .error e => .error e
    | .ok t =>
      .ok { RelPath := rel, AbsPath := abs, Slices := slices,
            PrimarySlice := primary, Priority := priority,
            OriginalLines := t.origLines, OriginalBytes := bts.length,
            KeptLines := t.keptLines, KeptBytes := t.keptBytes,
            Truncated := t.truncated, Content := t.content }

/-- The read outcome for one selected file under the given limits. -/
def readOutcome (fs : String → Option (List Nat)) (L : Limits) (f : SelFile) :
    Except RErr FileEntry :=
  readAndTruncateFile fs f.RelPath f.AbsPath f.Slices f.PrimarySlice
    f.PrimaryPriority L.PerFileMaxLines L.PerFileMaxBytes

/-- Dropped entry recorded by `BuildPlan` for an excluded selected file. -/
def toDropped (d : SelFile) : DroppedEntry :=
  { RelPath := d.RelPath, Slices := d.Slices, PrimarySlice := d.PrimarySlice,
    Reason := d.ExclusionReason, Detail := d.ExclusionDetail }

/-- The loop body of `BuildPlan` over `selected.Included`. -/
def buildStep (fs : String → Option (List Nat)) (L : Limits) (p : Plan)
    (f : SelFile) : Plan :=
  match readOutcome fs L f with
  | .error .invalidUTF8 =>
    { p with
      Dropped := p.Dropped ++
        [{ RelPath := f.RelPath, Slices := f.Slices,
           PrimarySlice := f.PrimarySlice, Reason := "invalid_utf8",
           Detail := "invalid utf-8" }],
      PartialFlag := true }
  | .error .unreadable =>
    { p with
      Dropped := p.Dropped ++
        [{ RelPath := f.RelPath, Slices := f.Slices,
           PrimarySlice := f.PrimarySlice, Reason := "unreadable",
           Detail := "read error" }],
      PartialFlag := true }
  | .ok e => { p with Included := p.Included ++ [e] }

/-- Port of `budget.(*Builder).BuildPlan` (the context is never cancelled in
this model; the detail string of an unreadable drop is abstracted). -/
def buildPlan (fs : String → Option (List Nat)) (L : Limits)
    (profile : String) (enabledOrdered : List String) (sel : Selected) :
    Plan :=
  let base : Plan :=
    { Profile := profile, EnabledSlices := enabledOrdered, Included := [],
      Dropped := sel.Dropped.map toDropped, DroppedSlices := [],
      PartialFlag := sel.Dropped.any (fun d => d.ExclusionReason == "unreadable"),
      HardCut := false }
  orderPlanF (sel.Included.foldl (buildStep fs L) base)

/-! ### Global budget enforcement (`budget.EnforceGlobalBudget`) -/

/-- Drop order on slice names: priority ascending, then name ascending (the
`sort.Slice` comparator in `EnforceGlobalBudget`). -/
def sliceBefore (pri : String → Int) (a b : String) : Prop :=
  pri a < pri b ∨ (pri a = pri b ∧ strBefore a b)

instance (pri : String → Int) : DecidableRel (sliceBefore pri) := fun a b =>
  inferInstanceAs (Decidable (pri a < pri b ∨ (pri a = pri b ∧ strBefore a b)))

/-- The enabled slices sorted into drop order (lowest priority first). -/
def sortSlicesForDrop (pri : String → Int) (l : List String) : List String :=
  l.insertionSort (sliceBefore pri)

/-- Port of `budget.filterIncludedByKept`; the Go `keep` map is modelled by
the list of slice names still mapped to true. -/
def filterIncludedByKept (entries : List FileEntry) (keep : List String) :
    List FileEntry :=
  entries.filter (fun f => keep.contains f.PrimarySlice)

/-- Port of `budget.droppedFromRemovedSlices`. -/
def droppedFromRemovedSlices (entries : List FileEntry) (keep : List String) :
    List DroppedEntry :=
  (entries.filter (fun f => !keep.contains f.PrimarySlice)).map
    (fun f =>
      { RelPath := f.RelPath, Slices := f.Slices,
        PrimarySlice := f.PrimarySlice, Reason := "budget_exceeded",
        Detail := "slice dropped" })

/-- Rune count of a string (`utf8.RuneCountInString`; Lean strings are char
sequences, so this is the length). -/
def runeCount (s : String) : Nat := s.length

/-- The hard-cut bundle marker. -/
def goMarker : String := "\n… [BUNDLE TRUNCATED: budget_exceeded]\n"

/-- Port of `budget.hardCutRunes`. -/
def hardCutRunes (s : String) (mx : Int) : String :=
  if mx ≤ 0 then ""
  else if s.data.length ≤ mx.toNat then s
  else String.mk (s.data.take mx.toNat)

/-- One iteration body of the slice-drop loop: record the dropped slice,
refilter the included files of the ORIGINAL plan, append the dropped entries
for every file whose primary slice is no longer kept (note: appended to the
accumulated list), and re-sort. -/
def dropStep (origIncluded : List FileEntry) (keep2 : List String)
    (p2 : Plan) (s : String) : Plan :=
  orderPlanF
    { p2 with
      DroppedSlices := p2.DroppedSlices ++ [s],
      Included := filterIncludedByKept origIncluded keep2,
      Dropped := p2.Dropped ++ droppedFromRemovedSlices origIncluded keep2 }

/-- The slice-drop loop of `EnforceGlobalBudget`: returns `inl (plan, text)`
when a re-render fits the budget, `inr plan` when the loop exits to the
tightening stage. -/
def dropPhase (L : Limits) (render : Plan → String)
    (origIncluded : List FileEntry) :
    List String → List String → Plan → (Plan × String) ⊕ Plan
  | [], _, p2 => .inr p2
  | s :: rest, keepL, p2 =>
    if keepL.length ≤ 1 then .inr p2
    else
      let keep2 := keepL.erase s
      let p2' := dropStep origIncluded keep2 p2 s
      let r2 := render p2'
      if runeCount r2 ≤ L.MaxChars then .inl (p2', r2)
      else dropPhase L render origIncluded rest keep2 p2'

/-- The plan/keep-list state after processing a given list of slices in the
drop loop without fitting. -/
def dropsIter (origIncluded : List FileEntry) :
    List String → List String → Plan → Plan × List String
  | [], keepL, p2 => (p2, keepL)
  | s :: rest, keepL, p2 =>
    dropsIter origIncluded rest (keepL.erase s)
      (dropStep origIncluded (keepL.erase s) p2 s)

/-- The loop body of the truncation-tightening stage. -/
def tightenStep (fs : String → Option (List Nat)) (newMaxLines maxBytes : Nat)
    (t : Plan) (f : FileEntry) : Plan :=
  match readAndTruncateFile fs f.RelPath f.AbsPath f.Slices f.PrimarySlice
      f.Priority newMaxLines maxBytes with
  | .error _ =>
    { t with
      Dropped := t.Dropped ++
        [{ RelPath := f.RelPath, Slices := f.Slices,
           PrimarySlice := f.PrimarySlice, Reason := "unreadable",
           Detail := "read error" }],
      PartialFlag := true }
  | .ok e => { t with Included := t.Included ++ [e] }

/-- The truncation-tightening stage: halve the per-file line limit (floor 1)
and re-run the truncation engine over the currently included files. -/
def tightenPlan (fs : String → Option (List Nat)) (L : Limits) (p2 : Plan) :
    Plan :=
  let newMaxLines := max 1 (L.PerFileMaxLines / 2)
  orderPlanF
    (p2.Included.foldl (tightenStep fs newMaxLines L.PerFileMaxBytes)
      { p2 with Included := [] })

/-- Port of `budget.(*Builder).EnforceGlobalBudget` (context never cancelled,
renderer modelled as a pure total callback). -/
def enforceGlobalBudget (fs : String → Option (List Nat)) (L : Limits)
    (plan : Plan) (pri : String → Int) (render : Plan → String) :
    Plan × String :=
  let rendered := render plan
  if runeCount rendered ≤ L.MaxChars then (plan, rendered)
  else
    let plan2 := { plan with PartialFlag := true, DroppedSlices := [] }
    match dropPhase L render plan.Included
        (sortSlicesForDrop pri plan.EnabledSlices)
        plan.EnabledSlices.dedup plan2 with
    | .inl res => res
    | .inr p2 =>
      let tight := tightenPlan fs L p2
      let r3 := render tight
      if runeCount r3 ≤ L.MaxChars then (tight, r3)
      else
        let hard := { tight with HardCut := true, PartialFlag := true }
        let cut := hardCutRunes r3 ((L.MaxChars : Int) - (goMarker.length : Int))
        (hard, if cut = "" then goMarker else cut ++ goMarker)

/-- The intermediate plan after the first `j` drops of the slice-drop phase,
as a function of the input plan (used to state when the loop stops). -/
def planAfterDrops (plan : Plan) (pri : String → Int) (j : Nat) : Plan :=
  (dropsIter plan.Included ((sortSlicesForDrop pri plan.EnabledSlices).take j)
    plan.EnabledSlices.dedup
    { plan with PartialFlag := true, DroppedSlices := [] }).1

/-! ### Helper lemmas about the truncation engine -/

lemma foldlM_option_ind {α σ : Type} {f : σ → α → Option σ} {P : σ → Prop}
    (hstep : ∀ s a s', f s a = some s' → P s → P s') :
    ∀ (l : List α) (s s' : σ), List.foldlM f s l = some s' → P s → P s' := by
  intro l
  induction l with
  | nil =>
    intro s s' h hp
    simp only [List.foldlM_nil, pure, Option.some.injEq] at h
    rwa [← h]
  | cons a t ih =>
    intro s s' h hp
    rw [List.foldlM_cons] at h
    cases hf : f s a with
    | none => rw [hf] at h; simp at h
    | some s1 =>
      rw [hf] at h
      simp only [Option.bind_eq_bind, Option.some_bind] at h
      exact ih s1 s' h (hstep s a s1 hf hp)

/-- The bookkeeping invariant behind the truncation bounds: kept lines within
the line limit, kept bytes within the byte limit and equal to the length of
the kept buffer, and kept lines at most original lines. -/
def InvBounds (mL mB : Nat) (s : TruncSt) : Prop :=
  s.keptLines ≤ mL ∧ s.keptByteCount ≤ mB ∧
    s.keptByteCount = s.kept.length ∧ s.keptLines ≤ s.origLines

lemma flushLine_invBounds {mL mB : Nat} {s : TruncSt} {force : Bool}
    (h : InvBounds mL mB s) : InvBounds mL mB (flushLine mL mB force s) := by
  obtain ⟨h1, h2, h3, h4⟩ := h
  unfold flushLine
  dsimp only
  split_ifs <;>
    simp only [InvBounds, List.length_append] at * <;>
    omega

lemma stepByte_invBounds {mL mB : Nat} {s s' : TruncSt} {b : Nat}
    (hstep : stepByte mL mB s b = some s') (h : InvBounds mL mB s) :
    InvBounds mL mB s' := by
  obtain ⟨h1, h2, h3, h4⟩ := h
  unfold stepByte at hstep
  dsimp only at hstep
  rcases hfeed : feedUTF8 (s.validatorBuf ++ [b]) with ⟨ok, tail⟩
  rw [hfeed] at hstep
  cases ok with
  | false => simp at hstep
  | true =>
    simp only at hstep
    split_ifs at hstep <;>
        injection hstep with hX <;>
      subst hX <;>
      first
        | exact flushLine_invBounds ⟨h1, h2, h3, h4⟩
        | (refine ⟨?_, ?_, ?_, ?_⟩ <;> dsimp only <;> omega)

lemma feedAll_invBounds {mL mB : Nat} {bts : List Nat} {s s' : TruncSt}
    (hfold : feedAll mL mB s bts = some s') (h : InvBounds mL mB s) :
    InvBounds mL mB s' :=
  foldlM_option_ind (fun s a s' hs hp => stepByte_invBounds hs hp) bts s s' hfold h

lemma initSt_invBounds (mL mB : Nat) : InvBounds mL mB initSt := by
  simp [InvBounds, initSt]

lemma finalState_invBounds {mL mB : Nat} {s : TruncSt}
    (h : InvBounds mL mB s) : InvBounds mL mB (finalState mL mB s) := by
  obtain ⟨h1, h2, h3, h4⟩ := h
  unfold finalState
  split_ifs <;>
    first
      | exact flushLine_invBounds ⟨h1, h2, h3, h4⟩
      | exact ⟨h1, h2, h3, h4⟩
      | (refine ⟨?_, ?_, ?_, ?_⟩ <;> dsimp only <;> omega)

lemma truncateBytes_bounds {bts : List Nat} {mL mB : Nat} {t : TruncOut}
    (h : truncateBytes bts mL mB = .ok t) :
    t.keptLines ≤ mL ∧ t.keptLines ≤ t.origLines ∧ t.keptBytes ≤ mB := by
  unfold truncateBytes at h
  cases hall : feedAll mL mB initSt bts with
  | none => rw [hall] at h; simp at h
  | some s =>
    rw [hall] at h
    have hs := feedAll_invBounds hall (initSt_invBounds mL mB)
    obtain ⟨g1, g2, g3, g4⟩ := finalState_invBounds hs
    unfold finishTrunc at h
    dsimp only at h
    split_ifs at h <;> injection h with hX <;> subst hX <;> dsimp only <;>
      omega

/-! ### C10: empty input -/

/-- C10: for a zero-byte input and any limits at least 1, the truncation
engine returns zero original lines, zero kept lines, zero kept bytes, not
truncated, and empty content with no marker. -/
theorem truncate_empty_file (mL mB : Nat) (hL : 1 ≤ mL) (hB : 1 ≤ mB) :
    truncateBytes [] mL mB =
      .ok { origLines := 0, keptLines := 0, keptBytes := 0,
            truncated := false, content := [] } := rfl

/-- Witness for `truncate_empty_file` at limits 1, 1. -/
theorem truncate_empty_file_witness :
    1 ≤ 1 ∧ 1 ≤ 1 ∧
      truncateBytes [] 1 1 =
        .ok { origLines := 0, keptLines := 0, keptBytes := 0,
              truncated := false, content := [] } :=
  ⟨le_refl 1, le_refl 1, truncate_empty_file 1 1 (le_refl 1) (le_refl 1)⟩

/-! ### C3: truncation bounds -/

/-- C3: for every readable valid-UTF-8 file and limits at least 1, the file
entry produced by the truncation engine has kept lines at most the line
limit, kept lines at most original lines, and kept bytes (which exclude the
appended marker) at most the byte limit. -/
theorem readAndTruncate_bounds (fs : String → Option (List Nat))
    (rel abs : String) (slices : List String) (primary : String)
    (priority : Int) (mL mB : Nat) (e : FileEntry)
    (hL : 1 ≤ mL) (hB : 1 ≤ mB)
    (h : readAndTruncateFile fs rel abs slices primary priority mL mB = .ok e) :
    e.KeptLines ≤ mL ∧ e.KeptLines ≤ e.OriginalLines ∧ e.KeptBytes ≤ mB := by
  unfold readAndTruncateFile at h
  cases hfs : fs abs with
  | none => rw [hfs] at h; simp at h
  | some bts =>
    rw [hfs] at h
    dsimp only at h
    cases ht : truncateBytes bts mL mB with
    | error err => rw [ht] at h; simp at h
    | ok t =>
      rw [ht] at h
      dsimp only at h
      injection h with hX
      subst hX
      exact truncateBytes_bounds ht

/-- Witness for `readAndTruncate_bounds` on a one-byte file at limits 1, 1. -/
theorem readAndTruncate_bounds_witness :
    1 ≤ 1 ∧ 1 ≤ 1 ∧
      readAndTruncateFile (fun _ => some [97]) "a" "/x/a" ["s"] "s" 0 1 1 =
        .ok { RelPath := "a", AbsPath := "/x/a", Slices := ["s"],
              PrimarySlice := "s", Priority := 0, OriginalLines := 1,
              OriginalBytes := 1, KeptLines := 1, KeptBytes := 1,
              Truncated := false, Content := [97] } ∧
      (1 ≤ 1 ∧ 1 ≤ 1 ∧ 1 ≤ 1) :=
  ⟨le_refl 1, le_refl 1, rfl,
    readAndTruncate_bounds (fun _ => some [97]) "a" "/x/a" ["s"] "s" 0 1 1 _
      (le_refl 1) (le_refl 1) rfl⟩

/-! ### C4: count-only mode -/

/-- C4 counterexample: with line limit 5 and byte limit 3, after the
oversized first line of the file with bytes of the text consisting of the
characters a b c d and a newline followed by x and a newline is rejected
(truncated is set, nothing kept), the engine is NOT in count-only mode, and
the following line's bytes ARE appended to the kept output (the final entry
keeps the two bytes 120 and 10 of the second line). -/
theorem countOnly_after_reject_counterexample :
    (feedAll 5 3 initSt (asciiBytes "abcd\n")).map
        (fun s => (s.truncated, s.countOnly, s.kept)) =
      some (true, false, ([] : List Nat)) ∧
    (truncateBytes (asciiBytes "abcd\nx\n") 5 3).map
        (fun t => (t.truncated, t.keptLines, t.keptBytes, t.content.take 2)) =
      .ok (true, 1, 2, [120, 10]) := by
  exact ⟨rfl, rfl⟩

/-- C4 amended: once the engine is in count-only mode it stays there and
appends no further bytes to the kept output, and count-only mode implies
truncation; however the engine enters count-only mode only when the kept
budgets are exhausted, not upon every line rejection. -/
theorem stepByte_countOnly_sticky (mL mB : Nat) (s s' : TruncSt) (b : Nat)
    (h : stepByte mL mB s b = some s')
    (hInv : s.countOnly = true → s.truncated = true) :
    (s.countOnly = true → s'.countOnly = true ∧ s'.kept = s.kept) ∧
      (s'.countOnly = true → s'.truncated = true) ∧
      (s.countOnly = false → s'.countOnly = true →
        mL ≤ s'.keptLines ∨ mB ≤ s'.keptByteCount) := by
  unfold stepByte at h
  dsimp only at h
  rcases hfeed : feedUTF8 (s.validatorBuf ++ [b]) with ⟨ok, tail⟩
  rw [hfeed] at h
  cases ok with
  | false => simp at h
  | true =>
    simp only at h
    unfold flushLine at h
    dsimp only at h
    split_ifs at h <;> injection h with hX <;> subst hX <;>
      refine ⟨?_, ?_, ?_⟩ <;> dsimp only <;> simp_all <;> omega

/-! ### C9: idempotence of truncation -/

lemma normalizeNL_no_cr : ∀ (l : List Nat), 13 ∉ l → normalizeNL l = l
  | [], _ => rfl
  | [b], h => by
    have hb : b ≠ 13 := fun hb => h (by simp [hb])
    simp [normalizeNL, hb]
  | b :: c :: rest, h => by
    have hb : b ≠ 13 := fun hb => h (by simp [hb])
    have hr : 13 ∉ c :: rest := fun hm => h (List.mem_cons_of_mem _ hm)
    simp [normalizeNL, hb, normalizeNL_no_cr (c :: rest) hr]

/-- Reachable-state invariant of the truncation pass: in count-only mode the
truncated flag is set and the line buffer is empty, and right after a newline
byte the line buffer is empty. -/
def StInv (s : TruncSt) : Prop :=
  (s.countOnly = true → s.truncated = true ∧ s.lineBuf = []) ∧
    (s.lastByteWasNL = true → s.lineBuf = []) ∧
    (s.seenAny = false → s.lineBuf = [] ∧ s.kept = [])

lemma initSt_stInv : StInv initSt := by
  simp [StInv, initSt]

lemma stepByte_stInv {mL mB : Nat} {s s' : TruncSt} {b : Nat}
    (h : stepByte mL mB s b = some s') (hs : StInv s) : StInv s' := by
  obtain ⟨hc, hn, hsa⟩ := hs
  unfold stepByte at h
  dsimp only at h
  rcases hfeed : feedUTF8 (s.validatorBuf ++ [b]) with ⟨ok, tail⟩
  rw [hfeed] at h
  cases ok with
  | false => simp at h
  | true =>
    simp only at h
    unfold flushLine at h
    dsimp only at h
    split_ifs at h <;> injection h with hX <;> subst hX <;>
      refine ⟨?_, ?_, ?_⟩ <;> dsimp only <;> simp_all

lemma stepByte_untruncated {mL mB : Nat} {s s' : TruncSt} {b : Nat}
    (h : stepByte mL mB s b = some s') (hs : StInv s)
    (ht : s'.truncated = false) :
    s.truncated = false ∧
      s'.kept ++ s'.lineBuf = s.kept ++ s.lineBuf ++ [b] := by
  obtain ⟨hc, hn, hsa⟩ := hs
  unfold stepByte at h
  dsimp only at h
  rcases hfeed : feedUTF8 (s.validatorBuf ++ [b]) with ⟨ok, tail⟩
  rw [hfeed] at h
  cases ok with
  | false => simp at h
  | true =>
    simp only at h
    unfold flushLine at h
    dsimp only at h
    split_ifs at h <;> injection h with hX <;> subst hX <;>
      constructor <;> simp_all

lemma feedAll_untruncated {mL mB : Nat} :
    ∀ (bts : List Nat) (s s' : TruncSt),
      feedAll mL mB s bts = some s' → StInv s → s'.truncated = false →
      s.truncated = false ∧
        s'.kept ++ s'.lineBuf = s.kept ++ s.lineBuf ++ bts ∧ StInv s' := by
  intro bts
  induction bts with
  | nil =>
    intro s s' h hs ht
    simp only [feedAll, List.foldlM_nil, pure, Option.some.injEq] at h
    subst h
    exact ⟨ht, by simp, hs⟩
  | cons b rest ih =>
    intro s s' h hs ht
    simp only [feedAll, List.foldlM_cons] at h
    cases hf : stepByte mL mB s b with
    | none => rw [hf] at h; simp at h
    | some s1 =>
      rw [hf] at h
      simp only [Option.bind_eq_bind, Option.some_bind] at h
      have hs1 : StInv s1 := stepByte_stInv hf hs
      obtain ⟨h1t, h1eq, h1inv⟩ := ih s1 s' h hs1 ht
      obtain ⟨hst, hseq⟩ := stepByte_untruncated hf hs h1t
      refine ⟨hst, ?_, h1inv⟩
      rw [h1eq, hseq]
      simp

lemma flushLine_truncated_mono {mL mB : Nat} {force : Bool} {s : TruncSt}
    (h : s.truncated = true) : (flushLine mL mB force s).truncated = true := by
  unfold flushLine
  dsimp only
  split_ifs <;> simp_all

lemma flushLine_untruncated_kept {mL mB : Nat} {s : TruncSt}
    (h : (flushLine mL mB true s).truncated = false) :
    (flushLine mL mB true s).kept = s.kept ++ s.lineBuf ∧
      (flushLine mL mB true s).keptLines = s.keptLines + 1 := by
  unfold flushLine at h ⊢
  dsimp only at h ⊢
  split_ifs at h ⊢ <;> simp_all

lemma stepByte_seenAny {mL mB : Nat} {s s' : TruncSt} {b : Nat}
    (h : stepByte mL mB s b = some s') : s'.seenAny = true := by
  unfold stepByte at h
  dsimp only at h
  rcases hfeed : feedUTF8 (s.validatorBuf ++ [b]) with ⟨ok, tail⟩
  rw [hfeed] at h
  cases ok with
  | false => simp at h
  | true =>
    simp only at h
    unfold flushLine at h
    dsimp only at h
    split_ifs at h <;> injection h with hX <;> subst hX <;> simp_all

lemma feedAll_seenAny {mL mB : Nat} {bts : List Nat} {s s' : TruncSt}
    (h : feedAll mL mB s bts = some s') (hne : bts ≠ []) :
    s'.seenAny = true := by
  cases bts with
  | nil => exact absurd rfl hne
  | cons b rest =>
    simp only [feedAll, List.foldlM_cons] at h
    cases hf : stepByte mL mB s b with
    | none => rw [hf] at h; simp at h
    | some s1 =>
      rw [hf] at h
      simp only [Option.bind_eq_bind, Option.some_bind] at h
      exact foldlM_option_ind
        (fun s a s' hs hp => stepByte_seenAny hs) rest s1 s' h
        (stepByte_seenAny hf)

/-- C9 counterexample: the file with bytes 97 13 98 10 (the text a, carriage
return, b, newline) truncates under line limit 1 with `truncated = false` and
content 97 10 98 10 (newlines normalized), but re-running the engine on that
content with the same limits yields `truncated = true`: idempotence fails on
carriage-return input because newline normalization happens after line
counting. -/
theorem truncate_idempotent_counterexample :
    (truncateBytes [97, 13, 98, 10] 1 100).map (fun t => t.truncated) =
        .ok false ∧
      (truncateBytes [97, 13, 98, 10] 1 100).map (fun t => t.content) =
        .ok [97, 10, 98, 10] ∧
      (truncateBytes [97, 10, 98, 10] 1 100).map (fun t => t.truncated) =
        .ok true :=
  ⟨rfl, rfl, rfl⟩

lemma finalState_untruncated {mL mB : Nat} {s : TruncSt} (hs : StInv s)
    (ht : (finalState mL mB s).truncated = false) :
    s.truncated = false ∧
      (finalState mL mB s).kept = s.kept ++ s.lineBuf := by
  obtain ⟨hc, hn, hsa⟩ := hs
  unfold finalState at ht ⊢
  by_cases hfin : s.seenAny = true ∧ s.lastByteWasNL = false
  · rw [if_pos hfin] at ht ⊢
    by_cases hco : s.countOnly = true
    · rw [if_pos hco] at ht
      exfalso
      have := (hc hco).1
      simp [this] at ht
    · rw [if_neg hco] at ht ⊢
      have hst : s.truncated = false := by
        by_contra hstt
        have := @flushLine_truncated_mono mL mB true s (by simpa using hstt)
        simp [this] at ht
      exact ⟨hst, (flushLine_untruncated_kept ht).1⟩
  · rw [if_neg hfin] at ht ⊢
    refine ⟨ht, ?_⟩
    cases hsa2 : s.seenAny with
    | false => simp [(hsa hsa2).1]
    | true =>
      have hln : s.lastByteWasNL = true := by
        by_contra hlf
        exact hfin ⟨hsa2, by simpa using hlf⟩
      simp [hn hln]

/-- C9 amended: for input containing no carriage-return byte, if the
truncation result is untruncated then re-running the engine on the result's
content with the same limits returns the identical result (in particular no
further truncation and the same content). -/
theorem truncate_idempotent_no_cr (bts : List Nat) (mL mB : Nat)
    (t : TruncOut) (hcr : 13 ∉ bts) (h : truncateBytes bts mL mB = .ok t)
    (ht : t.truncated = false) : truncateBytes t.content mL mB = .ok t := by
  have hcontent : t.content = bts := by
    unfold truncateBytes at h
    cases hall : feedAll mL mB initSt bts with
    | none => rw [hall] at h; simp at h
    | some s =>
      rw [hall] at h
      have hsInv : StInv s :=
        foldlM_option_ind (fun s a s' hs hp => stepByte_stInv hs hp)
          bts initSt s hall initSt_stInv
      unfold finishTrunc at h
      dsimp only at h
      by_cases hv : s.validatorBuf ≠ []
      · rw [if_pos hv] at h
        exact absurd h (by simp)
      · rw [if_neg hv] at h
        injection h with hX
        subst hX
        dsimp only at ht ⊢
        obtain ⟨hst, hkeq⟩ := finalState_untruncated hsInv ht
        obtain ⟨_, heq, _⟩ :=
          feedAll_untruncated bts initSt s hall initSt_stInv hst
        simp only [initSt, List.nil_append] at heq
        rw [if_neg (by simp [ht]), hkeq, heq, normalizeNL_no_cr bts hcr]
  rw [hcontent]
  exact h

/-- Concrete untruncated engine output used to witness idempotence. -/
def outByte97 : TruncOut :=
  { origLines := 1, keptLines := 1, keptBytes := 1, truncated := false,
    content := [97] }

/-- Witness for `truncate_idempotent_no_cr` on the one-byte file 97. -/
theorem truncate_idempotent_no_cr_witness :
    (13 ∉ [97]) ∧ truncateBytes [97] 1 1 = .ok outByte97 ∧
      outByte97.truncated = false ∧
      truncateBytes outByte97.content 1 1 = .ok outByte97 :=
  ⟨by decide, rfl, rfl,
    truncate_idempotent_no_cr [97] 1 1 outByte97 (by decide) rfl rfl⟩

/-! ### C4 witness state -/

/-- A count-only state used to witness count-only stickiness. -/
def stWitness : TruncSt :=
  { kept := [], origLines := 1, keptLines := 0, truncated := true,
    seenAny := true, lastByteWasNL := true, lineBuf := [],
    keptByteCount := 0, validatorBuf := [], countOnly := true }

/-- The state after feeding byte 97 to `stWitness`. -/
def stWitness2 : TruncSt := { stWitness with lastByteWasNL := false }

/-- Witness for `stepByte_countOnly_sticky`. -/
theorem stepByte_countOnly_sticky_witness :
    stepByte 5 3 stWitness 97 = some stWitness2 ∧
      (stWitness.countOnly = true → stWitness.truncated = true) ∧
      ((stWitness.countOnly = true →
          stWitness2.countOnly = true ∧ stWitness2.kept = stWitness.kept) ∧
        (stWitness2.countOnly = true → stWitness2.truncated = true) ∧
        (stWitness.countOnly = false → stWitness2.countOnly = true →
          5 ≤ stWitness2.keptLines ∨ 3 ≤ stWitness2.keptByteCount)) :=
  ⟨by decide, fun _ => by decide,
    stepByte_countOnly_sticky 5 3 stWitness stWitness2 97 (by decide)
      (fun _ => by decide)⟩

/-! ### Characterization of `BuildPlan` (shared by the plan-flag and
invalid-encoding claims) -/

/-- The dropped entry `BuildPlan` records for a failing read, if any. -/
def dropOf (fs : String → Option (List Nat)) (L : Limits) (f : SelFile) :
    Option DroppedEntry :=
  match readOutcome fs L f with
  | .error .invalidUTF8 =>
    some { RelPath := f.RelPath, Slices := f.Slices,
           PrimarySlice := f.PrimarySlice, Reason := "invalid_utf8",
           Detail := "invalid utf-8" }
  | .error .unreadable =>
    some { RelPath := f.RelPath, Slices := f.Slices,
           PrimarySlice := f.PrimarySlice, Reason := "unreadable",
           Detail := "read error" }
  | .ok _ => none

/-- Whether a read outcome is an error. -/
def isErr (x : Except RErr FileEntry) : Bool :=
  match x with
  | .error _ => true
  | .ok _ => false

lemma buildFold_eq (fs : String → Option (List Nat)) (L : Limits) :
    ∀ (l : List SelFile) (p : Plan),
      l.foldl (buildStep fs L) p =
        { p with
          Included := p.Included ++
            l.filterMap (fun f => (readOutcome fs L f).toOption),
          Dropped := p.Dropped ++ l.filterMap (dropOf fs L),
          PartialFlag :=
            p.PartialFlag || l.any (fun f => isErr (readOutcome fs L f)) } := by
  intro l
  induction l with
  | nil => intro p; simp
  | cons f t ih =>
    intro p
    rw [List.foldl_cons, ih]
    unfold buildStep dropOf
    cases hro : readOutcome fs L f with
    | ok e => simp [hro, isErr, List.filterMap_cons, Except.toOption]
    | error err =>
      cases err <;> simp [hro, isErr, List.filterMap_cons, Except.toOption]

lemma buildPlan_eq (fs : String → Option (List Nat)) (L : Limits)
    (profile : String) (eo : List String) (sel : Selected) :
    buildPlan fs L profile eo sel =
      orderPlanF
        { Profile := profile, EnabledSlices := eo,
          Included :=
            sel.Included.filterMap (fun f => (readOutcome fs L f).toOption),
          Dropped :=
            sel.Dropped.map toDropped ++ sel.Included.filterMap (dropOf fs L),
          DroppedSlices := [],
          PartialFlag :=
            sel.Dropped.any (fun d => d.ExclusionReason == "unreadable")
              || sel.Included.any (fun f => isErr (readOutcome fs L f)),
          HardCut := false } := by
  unfold buildPlan
  dsimp only
  rw [buildFold_eq]
  simp

/-! ### C8: invalid UTF-8 drops the whole file -/

lemma dropOf_relPath {fs : String → Option (List Nat)} {L : Limits}
    {g : SelFile} {d : DroppedEntry} (h : dropOf fs L g = some d) :
    d.RelPath = g.RelPath ∧
      (d.Reason = "invalid_utf8" ∨ d.Reason = "unreadable") := by
  unfold dropOf at h
  cases hro : readOutcome fs L g with
  | ok e => rw [hro] at h; simp at h
  | error err =>
    rw [hro] at h
    cases err <;> (injection h with hX; subst hX; simp)

lemma dropOf_invalid {fs : String → Option (List Nat)} {L : Limits}
    {g : SelFile} (h : readOutcome fs L g = .error .invalidUTF8) :
    dropOf fs L g =
      some { RelPath := g.RelPath, Slices := g.Slices,
             PrimarySlice := g.PrimarySlice, Reason := "invalid_utf8",
             Detail := "invalid utf-8" } := by
  unfold dropOf
  rw [h]

lemma readOutcome_ok_relPath {fs : String → Option (List Nat)} {L : Limits}
    {g : SelFile} {e : FileEntry} (h : readOutcome fs L g = .ok e) :
    e.RelPath = g.RelPath := by
  unfold readOutcome readAndTruncateFile at h
  cases hfs : fs g.AbsPath with
  | none => rw [hfs] at h; simp at h
  | some bts =>
    rw [hfs] at h
    dsimp only at h
    cases ht : truncateBytes bts L.PerFileMaxLines L.PerFileMaxBytes with
    | error err => rw [ht] at h; simp at h
    | ok t =>
      rw [ht] at h
      dsimp only at h
      injection h with hX
      subst hX
      rfl

lemma invalid_drop_main (fs : String → Option (List Nat)) (L : Limits)
    (f : SelFile) (herr : readOutcome fs L f = .error .invalidUTF8) :
    ∀ (l : List SelFile), f ∈ l →
      l.countP (fun g => g.RelPath == f.RelPath) = 1 →
      ((l.filterMap (dropOf fs L)).countP
          (fun d => d.RelPath == f.RelPath) = 1) ∧
        (∀ d ∈ l.filterMap (dropOf fs L),
          d.RelPath = f.RelPath → d.Reason = "invalid_utf8") ∧
        (∀ e ∈ l.filterMap (fun g => (readOutcome fs L g).toOption),
          e.RelPath ≠ f.RelPath) := by
  intro l
  induction l with
  | nil => simp
  | cons g t ih =>
    intro hmem hcount
    rw [List.countP_cons] at hcount
    by_cases hrel : g.RelPath = f.RelPath
    · -- head matches: it must be the unique matching occurrence, i.e. f
      have hbeq : (g.RelPath == f.RelPath) = true := by simp [hrel]
      rw [hbeq] at hcount
      simp only [if_true] at hcount
      have hct : t.countP (fun g => g.RelPath == f.RelPath) = 0 := by omega
      have hgf : f = g := by
        rcases List.mem_cons.mp hmem with hh | hht
        · exact hh
        · exfalso
          have : 0 < t.countP (fun g => g.RelPath == f.RelPath) :=
            List.countP_pos_iff.mpr ⟨f, hht, by simp⟩
          omega
      subst hgf
      have htail0 :
          (t.filterMap (dropOf fs L)).countP
            (fun d => d.RelPath == f.RelPath) = 0 := by
        rw [List.countP_eq_zero]
        intro d hd
        obtain ⟨g', hg', hdg'⟩ := List.mem_filterMap.mp hd
        have hg'rel : ¬ (g'.RelPath == f.RelPath) = true :=
          List.countP_eq_zero.mp hct g' hg'
        have hrel' := (dropOf_relPath hdg').1
        simpa [hrel'] using hg'rel
      refine ⟨?_, ?_, ?_⟩
      · rw [List.filterMap_cons, dropOf_invalid herr, List.countP_cons]
        simp [htail0]
      · intro d hd hdrel
        rw [List.filterMap_cons, dropOf_invalid herr] at hd
        rcases List.mem_cons.mp hd with hd | hd
        · simp [hd]
        · exfalso
          have := List.countP_eq_zero.mp htail0 d hd
          simp [hdrel] at this
      · intro e he
        rw [List.filterMap_cons, herr] at he
        simp only [Except.toOption] at he
        obtain ⟨g', hg', hdg'⟩ := List.mem_filterMap.mp he
        have hg'rel : ¬ (g'.RelPath == f.RelPath) = true :=
          List.countP_eq_zero.mp hct g' hg'
        cases hro' : readOutcome fs L g' with
        | error err => rw [hro'] at hdg'; simp [Except.toOption] at hdg'
        | ok e' =>
          rw [hro'] at hdg'
          simp only [Except.toOption, Option.some.injEq] at hdg'
          have hre := readOutcome_ok_relPath hro'
          intro hcontra
          rw [← hdg', hre] at hcontra
          simp [hcontra] at hg'rel
    · -- head does not match
      have hbeq : (g.RelPath == f.RelPath) = false := by
        simp [hrel]
      rw [hbeq] at hcount
      simp only [if_false, Nat.add_zero, Bool.false_eq_true] at hcount
      have hfneq : f ≠ g := fun hfg => hrel (by rw [← hfg])
      have hft : f ∈ t := by
        rcases List.mem_cons.mp hmem with hh | hht
        · exact absurd hh hfneq
        · exact hht
      obtain ⟨ih1, ih2, ih3⟩ := ih hft hcount
      refine ⟨?_, ?_, ?_⟩
      · rw [List.filterMap_cons]
        cases hdo : dropOf fs L g with
        | none => exact ih1
        | some d =>
          rw [List.countP_cons]
          have hne : ¬ (d.RelPath == f.RelPath) = true := by
            have := (dropOf_relPath hdo).1
            simp [this, hrel]
          simp [hne, ih1]
      · intro d hd hdrel
        rw [List.filterMap_cons] at hd
        cases hdo : dropOf fs L g with
        | none =>
          rw [hdo] at hd
          exact ih2 d hd hdrel
        | some d' =>
          rw [hdo] at hd
          rcases List.mem_cons.mp hd with hd | hd
          · exfalso
            have := (dropOf_relPath hdo).1
            rw [hd] at hdrel
            exact hrel (this ▸ hdrel)
          · exact ih2 d hd hdrel
      · intro e he
        rw [List.filterMap_cons] at he
        cases hro : readOutcome fs L g with
        | error err =>
          rw [hro] at he
          simp only [Except.toOption] at he
          exact ih3 e he
        | ok e' =>
          rw [hro] at he
          simp only [Except.toOption] at he
          rcases List.mem_cons.mp he with he | he
          · have hre := readOutcome_ok_relPath hro
            intro hcontra
            rw [he, hre] at hcontra
            exact hrel hcontra
          · exact ih3 e he

lemma orderPlanF_dropped_perm (p : Plan) :
    (orderPlanF p).Dropped.Perm p.Dropped :=
  List.perm_insertionSort droppedBefore p.Dropped

lemma orderPlanF_included_perm (p : Plan) :
    (orderPlanF p).Included.Perm p.Included :=
  List.perm_insertionSort fileBefore p.Included

/-- C8: if a selected file's bytes are rejected by the incremental UTF-8
validator, BuildPlan records exactly one DroppedEntry for that relative path,
tagged invalid_utf8, sets the plan's Partial flag, and includes no FileEntry
for that path (assuming the relative path occurs once among selected files
and not among classifier-dropped files). -/
theorem buildPlan_invalid_utf8_drop (fs : String → Option (List Nat))
    (L : Limits) (profile : String) (eo : List String) (sel : Selected)
    (f : SelFile) (hf : f ∈ sel.Included)
    (herr : readOutcome fs L f = .error .invalidUTF8)
    (hcount : sel.Included.countP (fun g => g.RelPath == f.RelPath) = 1)
    (hdrop : ∀ d ∈ sel.Dropped, d.RelPath ≠ f.RelPath) :
    ((buildPlan fs L profile eo sel).Dropped.countP
        (fun d => d.RelPath == f.RelPath) = 1) ∧
      (∀ d ∈ (buildPlan fs L profile eo sel).Dropped,
        d.RelPath = f.RelPath → d.Reason = "invalid_utf8") ∧
      (buildPlan fs L profile eo sel).PartialFlag = true ∧
      (∀ e ∈ (buildPlan fs L profile eo sel).Included,
        e.RelPath ≠ f.RelPath) := by
  obtain ⟨m1, m2, m3⟩ := invalid_drop_main fs L f herr sel.Included hf hcount
  rw [buildPlan_eq]
  have hmapzero :
      (sel.Dropped.map toDropped).countP (fun d => d.RelPath == f.RelPath)
        = 0 := by
    rw [List.countP_eq_zero]
    intro d hd
    obtain ⟨d0, hd0, hdd⟩ := List.mem_map.mp hd
    have : d.RelPath = d0.RelPath := by rw [← hdd]; rfl
    simp [this, hdrop d0 hd0]
  refine ⟨?_, ?_, ?_, ?_⟩
  · rw [List.Perm.countP_eq _ (orderPlanF_dropped_perm _)]
    dsimp only
    rw [List.countP_append, hmapzero, m1]
  · intro d hd hdrel
    have hd' := (orderPlanF_dropped_perm _).mem_iff.mp hd
    dsimp only at hd'
    rcases List.mem_append.mp hd' with hd2 | hd2
    · exfalso
      have := List.countP_eq_zero.mp hmapzero d hd2
      simp [hdrel] at this
    · exact m2 d hd2 hdrel
  · dsimp only
    have : sel.Included.any (fun f => isErr (readOutcome fs L f)) = true :=
      List.any_eq_true.mpr ⟨f, hf, by rw [herr]; rfl⟩
    simp [this, orderPlanF]
  · intro e he
    have he' := (orderPlanF_included_perm _).mem_iff.mp he
    dsimp only at he'
    exact m3 e he'

/-- A selected file whose bytes are not valid UTF-8 (the scenario file with
bytes 255 254 253). -/
def fBad : SelFile :=
  { RelPath := "bad.bin", AbsPath := "/x/bad.bin", SizeBytes := 3,
    IsHidden := false, Slices := ["api"], PrimarySlice := "api",
    PrimaryPriority := 10, Excluded := false, ExclusionReason := "",
    ExclusionDetail := "" }

/-- Filesystem holding only the invalid file. -/
def fsBad : String → Option (List Nat) := fun p =>
  if p = "/x/bad.bin" then some [255, 254, 253] else none

/-- Selection containing only the invalid file. -/
def selBad : Selected := { Included := [fBad], Dropped := [] }

/-- Limits used in the invalid-encoding scenario. -/
def limitsBad : Limits :=
  { MaxChars := 100000, PerFileMaxLines := 10, PerFileMaxBytes := 1048576 }

/-- Witness for `buildPlan_invalid_utf8_drop` on the scenario file with
bytes 255 254 253. -/
theorem buildPlan_invalid_utf8_drop_witness :
    fBad ∈ selBad.Included ∧
      readOutcome fsBad limitsBad fBad = .error .invalidUTF8 ∧
      selBad.Included.countP (fun g => g.RelPath == fBad.RelPath) = 1 ∧
      (∀ d ∈ selBad.Dropped, d.RelPath ≠ fBad.RelPath) ∧
      (((buildPlan fsBad limitsBad "p" ["api"] selBad).Dropped.countP
          (fun d => d.RelPath == fBad.RelPath) = 1) ∧
        (∀ d ∈ (buildPlan fsBad limitsBad "p" ["api"] selBad).Dropped,
          d.RelPath = fBad.RelPath → d.Reason = "invalid_utf8") ∧
        (buildPlan fsBad limitsBad "p" ["api"] selBad).PartialFlag = true ∧
        (∀ e ∈ (buildPlan fsBad limitsBad "p" ["api"] selBad).Included,
          e.RelPath ≠ fBad.RelPath)) :=
  ⟨by decide, rfl, by decide, by simp [selBad],
    buildPlan_invalid_utf8_drop fsBad limitsBad "p" ["api"] selBad fBad
      (by decide) rfl (by decide) (by simp [selBad])⟩

/-! ### C1: the Partial flag -/

/-- A classifier-excluded binary file that is a member of an enabled slice. -/
def fBin : SelFile :=
  { RelPath := "x.bin", AbsPath := "/x/x.bin", SizeBytes := 3,
    IsHidden := false, Slices := ["api"], PrimarySlice := "api",
    PrimaryPriority := 10, Excluded := true,
    ExclusionReason := "excluded_binary", ExclusionDetail := "binary" }

/-- Selection whose only file was excluded as binary. -/
def selBin : Selected := { Included := [], Dropped := [fBin] }

/-- C1 counterexample: BuildPlan on a selection whose only file was
classifier-excluded as binary yields a plan with a non-empty Dropped list,
HardCut false, and Partial false, refuting that Partial is true iff Dropped
is non-empty or HardCut is true. -/
theorem plan_partial_iff_counterexample :
    ¬ ((buildPlan (fun _ => none) limitsBad "p" ["api"] selBin).PartialFlag
          = true ↔
        ((buildPlan (fun _ => none) limitsBad "p" ["api"] selBin).Dropped
            ≠ [] ∨
          (buildPlan (fun _ => none) limitsBad "p" ["api"] selBin).HardCut
            = true)) := by
  decide

lemma isErr_iff {x : Except RErr FileEntry} :
    isErr x = true ↔ ∃ err, x = .error err := by
  cases x <;> simp [isErr]

lemma dropPhase_partialFlag (L : Limits) (render : Plan → String)
    (orig : List FileEntry) :
    ∀ (remaining keepL : List String) (p2 : Plan), p2.PartialFlag = true →
      (∀ p r, dropPhase L render orig remaining keepL p2 = .inl (p, r) →
        p.PartialFlag = true) ∧
      (∀ p, dropPhase L render orig remaining keepL p2 = .inr p →
        p.PartialFlag = true) := by
  intro remaining
  induction remaining with
  | nil =>
    intro keepL p2 hp
    constructor
    · intro p r h
      simp [dropPhase] at h
    · intro p h
      simp only [dropPhase] at h
      injection h with hX
      rw [← hX]
      exact hp
  | cons s rest ih =>
    intro keepL p2 hp
    have hstep : (dropStep orig (keepL.erase s) p2 s).PartialFlag = true := hp
    constructor
    · intro p r h
      unfold dropPhase at h
      dsimp only at h
      split_ifs at h with hk hfit
      · injection h with hX
        injection hX with h1 h2
        rw [← h1]
        exact hstep
      · exact (ih (keepL.erase s) (dropStep orig (keepL.erase s) p2 s)
          hstep).1 p r h
    · intro p h
      unfold dropPhase at h
      dsimp only at h
      split_ifs at h with hk hfit
      · injection h with hX
        rw [← hX]
        exact hp
      · exact (ih (keepL.erase s) (dropStep orig (keepL.erase s) p2 s)
          hstep).2 p h

lemma tightenFold_partialFlag (fs : String → Option (List Nat))
    (nML mB : Nat) :
    ∀ (l : List FileEntry) (t : Plan), t.PartialFlag = true →
      (l.foldl (tightenStep fs nML mB) t).PartialFlag = true := by
  intro l
  induction l with
  | nil => intro t h; exact h
  | cons fe rest ih =>
    intro t h
    rw [List.foldl_cons]
    apply ih
    unfold tightenStep
    cases hro : readAndTruncateFile fs fe.RelPath fe.AbsPath fe.Slices
        fe.PrimarySlice fe.Priority nML mB <;> simp [h]

lemma tightenPlan_partialFlag (fs : String → Option (List Nat)) (L : Limits)
    (p : Plan) (hp : p.PartialFlag = true) :
    (tightenPlan fs L p).PartialFlag = true := by
  unfold tightenPlan orderPlanF
  dsimp only
  exact tightenFold_partialFlag fs _ _ p.Included _ hp

/-- C1 amended: BuildPlan's Partial flag is true precisely when some dropped
entry has reason unreadable or invalid_utf8 (classifier drops with other
reasons, such as binary, leave it false); and EnforceGlobalBudget either
returns its input plan unchanged (when the initial render fits the budget)
or returns a plan whose Partial flag is true (even when no new entry was
dropped, e.g. after truncation tightening alone). -/
theorem plan_partial_characterization (fs : String → Option (List Nat))
    (L : Limits) (profile : String) (eo : List String) (sel : Selected)
    (plan : Plan) (pri : String → Int) (render : Plan → String)
    (hnr : ∀ d ∈ sel.Dropped, d.ExclusionReason ≠ "invalid_utf8") :
    ((buildPlan fs L profile eo sel).PartialFlag = true ↔
        ∃ d ∈ (buildPlan fs L profile eo sel).Dropped,
          d.Reason = "unreadable" ∨ d.Reason = "invalid_utf8") ∧
      ((enforceGlobalBudget fs L plan pri render).1 = plan ∨
        (enforceGlobalBudget fs L plan pri render).1.PartialFlag = true) := by
  constructor
  · rw [buildPlan_eq]
    constructor
    · intro hpf
      have hpf' :
          (sel.Dropped.any (fun d => d.ExclusionReason == "unreadable")
            || sel.Included.any (fun f => isErr (readOutcome fs L f)))
            = true := hpf
      rcases Bool.or_eq_true_iff.mp hpf' with h1 | h2
      · obtain ⟨d0, hd0, hud⟩ := List.any_eq_true.mp h1
        refine ⟨toDropped d0, ?_, ?_⟩
        · apply (orderPlanF_dropped_perm _).mem_iff.mpr
          dsimp only
          exact List.mem_append.mpr (Or.inl (List.mem_map_of_mem _ hd0))
        · left
          have : d0.ExclusionReason = "unreadable" := by simpa using hud
          simpa [toDropped] using this
      · obtain ⟨g, hg, hge⟩ := List.any_eq_true.mp h2
        obtain ⟨err, herr⟩ := isErr_iff.mp hge
        cases err with
        | invalidUTF8 =>
          refine ⟨{ RelPath := g.RelPath, Slices := g.Slices,
                     PrimarySlice := g.PrimarySlice,
                     Reason := "invalid_utf8",
                     Detail := "invalid utf-8" }, ?_, Or.inr rfl⟩
          apply (orderPlanF_dropped_perm _).mem_iff.mpr
          dsimp only
          refine List.mem_append.mpr (Or.inr ?_)
          exact List.mem_filterMap.mpr ⟨g, hg, dropOf_invalid herr⟩
        | unreadable =>
          refine ⟨{ RelPath := g.RelPath, Slices := g.Slices,
                     PrimarySlice := g.PrimarySlice,
                     Reason := "unreadable",
                     Detail := "read error" }, ?_, Or.inl rfl⟩
          apply (orderPlanF_dropped_perm _).mem_iff.mpr
          dsimp only
          refine List.mem_append.mpr (Or.inr ?_)
          refine List.mem_filterMap.mpr ⟨g, hg, ?_⟩
          unfold dropOf
          rw [herr]
    · rintro ⟨d, hd, hreason⟩
      have hd' := (orderPlanF_dropped_perm _).mem_iff.mp hd
      dsimp only at hd'
      show (sel.Dropped.any (fun d => d.ExclusionReason == "unreadable")
        || sel.Included.any (fun f => isErr (readOutcome fs L f))) = true
      rcases List.mem_append.mp hd' with h1 | h2
      · obtain ⟨d0, hd0, hdd⟩ := List.mem_map.mp h1
        have hr : d.Reason = d0.ExclusionReason := by rw [← hdd]; rfl
        have hru : d0.ExclusionReason = "unreadable" := by
          rcases hreason with h | h
          · rw [← hr]; exact h
          · exact absurd (hr ▸ h) (hnr d0 hd0)
        apply Bool.or_eq_true_iff.mpr
        left
        exact List.any_eq_true.mpr ⟨d0, hd0, by simp [hru]⟩
      · obtain ⟨g, hg, hdg⟩ := List.mem_filterMap.mp h2
        apply Bool.or_eq_true_iff.mpr
        right
        refine List.any_eq_true.mpr ⟨g, hg, ?_⟩
        unfold dropOf at hdg
        cases hro : readOutcome fs L g with
        | ok e => rw [hro] at hdg; simp at hdg
        | error err => rfl
  · unfold enforceGlobalBudget
    dsimp only
    by_cases hfit : runeCount (render plan) ≤ L.MaxChars
    · rw [if_pos hfit]
      exact Or.inl rfl
    · rw [if_neg hfit]
      right
      have hp2 : ({ plan with PartialFlag := true, DroppedSlices := [] } : Plan).PartialFlag = true := rfl
      cases hdp : dropPhase L render plan.Included
          (sortSlicesForDrop pri plan.EnabledSlices)
          plan.EnabledSlices.dedup
          { plan with PartialFlag := true, DroppedSlices := [] } with
      | inl pr =>
        dsimp only
        exact (dropPhase_partialFlag L render plan.Included _ _ _ hp2).1
          pr.1 pr.2 (by rw [hdp])
      | inr p2 =>
        dsimp only
        have hp2' : p2.PartialFlag = true :=
          (dropPhase_partialFlag L render plan.Included _ _ _ hp2).2 p2 hdp
        split_ifs with hfit3 <;>
          first
            | exact tightenPlan_partialFlag fs L p2 hp2'
            | rfl

/-- A minimal plan used as enforcement input in witnesses. -/
def planEx : Plan :=
  { Profile := "p", EnabledSlices := ["api"], Included := [], Dropped := [],
    DroppedSlices := [], PartialFlag := false, HardCut := false }

/-- Witness for `plan_partial_characterization` on the binary-drop
selection. -/
theorem plan_partial_characterization_witness :
    (∀ d ∈ selBin.Dropped, d.ExclusionReason ≠ "invalid_utf8") ∧
      (((buildPlan (fun _ => none) limitsBad "p" ["api"] selBin).PartialFlag
            = true ↔
          ∃ d ∈ (buildPlan (fun _ => none) limitsBad "p" ["api"]
              selBin).Dropped,
            d.Reason = "unreadable" ∨ d.Reason = "invalid_utf8") ∧
        ((enforceGlobalBudget (fun _ => none) limitsBad planEx
            (fun _ => 0) (fun _ => "ab")).1 = planEx ∨
          (enforceGlobalBudget (fun _ => none) limitsBad planEx
            (fun _ => 0) (fun _ => "ab")).1.PartialFlag = true)) :=
  ⟨by decide,
    plan_partial_characterization (fun _ => none) limitsBad "p" ["api"]
      selBin planEx (fun _ => 0) (fun _ => "ab") (by decide)⟩

/-! ### C5: global budget satisfaction -/

lemma hardCutRunes_length (s : String) (mx : Int) :
    runeCount (hardCutRunes s mx) ≤ mx.toNat := by
  unfold hardCutRunes runeCount
  split_ifs with h1 h2
  · exact Nat.zero_le _
  · exact h2
  · show (s.data.take mx.toNat).length ≤ mx.toNat
    simpa using List.length_take_le _ _

lemma dropPhase_inl_fits (L : Limits) (render : Plan → String)
    (orig : List FileEntry) :
    ∀ (remaining keepL : List String) (p2 p : Plan) (r : String),
      dropPhase L render orig remaining keepL p2 = .inl (p, r) →
      runeCount r ≤ L.MaxChars := by
  intro remaining
  induction remaining with
  | nil =>
    intro keepL p2 p r h
    simp [dropPhase] at h
  | cons s rest ih =>
    intro keepL p2 p r h
    unfold dropPhase at h
    dsimp only at h
    split_ifs at h with hk hfit
    all_goals
      first
        | exact ih _ _ p r h
        | (injection h with hX
           injection hX with h1 h2
           rw [← h2]
           exact hfit)
        | (rw [← h.2]; exact hfit)
        | (exfalso; exact Sum.noConfusion h)

/-- C5 counterexample: with character budget 1 and a renderer that always
returns the two-character text consisting of a and b, the hard-cut path
returns exactly the 39-rune bundle-truncation marker, which exceeds the
budget. -/
theorem enforce_budget_small_counterexample :
    runeCount (enforceGlobalBudget (fun _ => none)
        { MaxChars := 1, PerFileMaxLines := 10, PerFileMaxBytes := 100 }
        planEx (fun _ => 0) (fun _ => "ab")).2 = 39 ∧
      ¬ runeCount (enforceGlobalBudget (fun _ => none)
          { MaxChars := 1, PerFileMaxLines := 10, PerFileMaxBytes := 100 }
          planEx (fun _ => 0) (fun _ => "ab")).2 ≤ 1 := by
  constructor
  · rfl
  · decide

/-- C5 amended: the text returned by EnforceGlobalBudget has rune count at
most the maximum of the character budget and the 39-rune hard-cut marker
length (so at most the budget whenever the budget is at least 39); whenever
the returned plan is not hard-cut, the rune count is at most the budget.
For budgets smaller than the marker the hard-cut path can return just the
marker, exceeding the budget. -/
theorem enforce_budget_bound (fs : String → Option (List Nat)) (L : Limits)
    (plan : Plan) (pri : String → Int) (render : Plan → String) :
    runeCount (enforceGlobalBudget fs L plan pri render).2
        ≤ max L.MaxChars (runeCount goMarker) ∧
      ((enforceGlobalBudget fs L plan pri render).1.HardCut = true ∨
        runeCount (enforceGlobalBudget fs L plan pri render).2
          ≤ L.MaxChars) := by
  unfold enforceGlobalBudget
  dsimp only
  by_cases hfit : runeCount (render plan) ≤ L.MaxChars
  · rw [if_pos hfit]
    exact ⟨le_trans hfit (le_max_left _ _), Or.inr hfit⟩
  · rw [if_neg hfit]
    cases hdp : dropPhase L render plan.Included
        (sortSlicesForDrop pri plan.EnabledSlices)
        plan.EnabledSlices.dedup
        { plan with PartialFlag := true, DroppedSlices := [] } with
    | inl pr =>
      dsimp only
      have hle : runeCount pr.2 ≤ L.MaxChars :=
        dropPhase_inl_fits L render plan.Included _ _ _ pr.1 pr.2 (by rw [hdp])
      exact ⟨le_trans hle (le_max_left _ _), Or.inr hle⟩
    | inr p2 =>
      dsimp only
      split_ifs with hfit3 hcut
      · exact ⟨le_trans hfit3 (le_max_left _ _), Or.inr hfit3⟩
      · exact ⟨le_max_right _ _, Or.inl rfl⟩
      · constructor
        · rw [runeCount, String.length_append]
          have hc := hardCutRunes_length (render (tightenPlan fs L p2))
            ((L.MaxChars : Int) - (goMarker.length : Int))
          rw [runeCount] at hc
          have : goMarker.length = runeCount goMarker := rfl
          omega
        · exact Or.inl rfl

/-! ### C2: the partition invariant and the duplicate-drop defect -/

/-- An included file entry used in the duplicate-drop scenario. -/
def feOf (rel ps : String) (pr : Int) : FileEntry :=
  { RelPath := rel, AbsPath := "/x/" ++ rel, Slices := [ps],
    PrimarySlice := ps, Priority := pr, OriginalLines := 1,
    OriginalBytes := 1, KeptLines := 1, KeptBytes := 1, Truncated := false,
    Content := [97] }

/-- Three-slice plan, one file per slice, for the duplicate-drop scenario. -/
def planDup : Plan :=
  { Profile := "p", EnabledSlices := ["a", "b", "c"],
    Included := [feOf "fa" "a" 1, feOf "fb" "b" 2, feOf "fc" "c" 3],
    Dropped := [], DroppedSlices := [], PartialFlag := false,
    HardCut := false }

/-- Priorities for the duplicate-drop scenario. -/
def priDup : String → Int := fun s =>
  if s = "a" then 1 else if s = "b" then 2 else 3

/-- Renderer that fits the budget only once at most one file remains. -/
def renderDup : Plan → String := fun p =>
  if p.Included.length ≤ 1 then "ok" else "toolongggg"

/-- Limits for the duplicate-drop scenario. -/
def limitsDup : Limits :=
  { MaxChars := 5, PerFileMaxLines := 10, PerFileMaxBytes := 100 }

/-- C2 failing evaluation: when the slice-drop loop of EnforceGlobalBudget
runs twice (slices a then b dropped before the render fits), the file of the
first dropped slice is recorded in Dropped twice, because the loop appends
the ENTIRE removed set again on every iteration; the partition invariant
(each file exactly once) is violated. -/
theorem enforce_duplicate_dropped_eval :
    ((enforceGlobalBudget (fun _ => none) limitsDup planDup priDup
          renderDup).1.Dropped.countP (fun d => d.RelPath == "fa")) = 2 ∧
      (enforceGlobalBudget (fun _ => none) limitsDup planDup priDup
          renderDup).1.DroppedSlices = ["a", "b"] := by
  constructor
  · decide
  · decide

/-! ### C6: deterministic slice-drop order -/

/-- The plan carried by either outcome of the drop phase. -/
def phaseResult : (Plan × String) ⊕ Plan → Plan
  | .inl pr => pr.1
  | .inr p => p

lemma dropStep_dropped_slices (orig : List FileEntry) (keep2 : List String)
    (p2 : Plan) (s : String) :
    (dropStep orig keep2 p2 s).DroppedSlices = p2.DroppedSlices ++ [s] := rfl

lemma dropsIter_dropped_slices (orig : List FileEntry) :
    ∀ (l keepL : List String) (p : Plan),
      ((dropsIter orig l keepL p).1).DroppedSlices =
        p.DroppedSlices ++ l := by
  intro l
  induction l with
  | nil => intro keepL p; simp [dropsIter]
  | cons s rest ih =>
    intro keepL p
    rw [dropsIter, ih, dropStep_dropped_slices]
    simp

lemma tightenFold_dropped_slices (fs : String → Option (List Nat))
    (nML mB : Nat) :
    ∀ (l : List FileEntry) (t : Plan),
      (l.foldl (tightenStep fs nML mB) t).DroppedSlices =
        t.DroppedSlices := by
  intro l
  induction l with
  | nil => intro t; rfl
  | cons fe rest ih =>
    intro t
    rw [List.foldl_cons, ih]
    unfold tightenStep
    cases readAndTruncateFile fs fe.RelPath fe.AbsPath fe.Slices
        fe.PrimarySlice fe.Priority nML mB <;> rfl

lemma tightenPlan_dropped_slices (fs : String → Option (List Nat))
    (L : Limits) (p : Plan) :
    (tightenPlan fs L p).DroppedSlices = p.DroppedSlices := by
  unfold tightenPlan orderPlanF
  dsimp only
  exact tightenFold_dropped_slices fs _ _ p.Included _

lemma dropPhase_spec (L : Limits) (render : Plan → String)
    (orig : List FileEntry) :
    ∀ (remaining keepL : List String) (p2 : Plan),
      remaining.Nodup → (∀ s ∈ remaining, s ∈ keepL) →
      ∃ k, k ≤ remaining.length ∧ k + 1 ≤ max 1 keepL.length ∧
        phaseResult (dropPhase L render orig remaining keepL p2) =
          (dropsIter orig (remaining.take k) keepL p2).1 ∧
        (∀ j, 1 ≤ j → j < k →
          L.MaxChars <
            runeCount
              (render (dropsIter orig (remaining.take j) keepL p2).1)) := by
  intro remaining
  induction remaining with
  | nil =>
    intro keepL p2 _ _
    refine ⟨0, Nat.le_refl 0, ?_, ?_, ?_⟩
    · have := Nat.le_max_left 1 keepL.length
      omega
    · simp [dropPhase, phaseResult, dropsIter]
    · intro j hj1 hj2
      omega
  | cons s rest ih =>
    intro keepL p2 hnd hsub
    by_cases hk : keepL.length ≤ 1
    · refine ⟨0, Nat.zero_le _, ?_, ?_, ?_⟩
      · have := Nat.le_max_left 1 keepL.length
        omega
      · unfold dropPhase
        dsimp only
        rw [if_pos hk]
        simp [phaseResult, dropsIter]
      · intro j hj1 hj2
        omega
    · have hsk : s ∈ keepL := hsub s (List.mem_cons_self s rest)
      have hlen : (keepL.erase s).length = keepL.length - 1 := by
        rw [List.length_erase]
        simp [hsk]
      have hsnotr : s ∉ rest := (List.nodup_cons.mp hnd).1
      have hsubr : ∀ t ∈ rest, t ∈ keepL.erase s := by
        intro t ht
        have htne : t ≠ s := fun hts => hsnotr (hts ▸ ht)
        exact (List.mem_erase_of_ne htne).mpr
          (hsub t (List.mem_cons_of_mem _ ht))
      by_cases hfit :
          runeCount (render (dropStep orig (keepL.erase s) p2 s)) ≤ L.MaxChars
      · refine ⟨1, by simp, ?_, ?_, ?_⟩
        · have hmax : max 1 keepL.length = keepL.length :=
            Nat.max_eq_right (by omega)
          omega
        · unfold dropPhase
          dsimp only
          rw [if_neg hk, if_pos hfit]
          simp [phaseResult, dropsIter]
        · intro j hj1 hj2
          omega
      · obtain ⟨k, hk1, hk2, hk3, hk4⟩ :=
          ih (keepL.erase s) (dropStep orig (keepL.erase s) p2 s)
            (List.Nodup.of_cons hnd) hsubr
        refine ⟨k + 1, by simpa using hk1, ?_, ?_, ?_⟩
        · have h2 : 2 ≤ keepL.length := by omega
          have hm1 : max 1 (keepL.erase s).length = keepL.length - 1 := by
            rw [hlen]
            exact Nat.max_eq_right (by omega)
          have hm2 : max 1 keepL.length = keepL.length :=
            Nat.max_eq_right (by omega)
          omega
        · unfold dropPhase
          dsimp only
          rw [if_neg hk, if_neg hfit]
          rw [hk3]
          simp [dropsIter]
        · intro j hj1 hj2
          cases j with
          | zero => omega
          | succ j' =>
            have hrw :
                (dropsIter orig ((s :: rest).take (j' + 1)) keepL p2).1 =
                  (dropsIter orig (rest.take j') (keepL.erase s)
                    (dropStep orig (keepL.erase s) p2 s)).1 := by
              simp [dropsIter]
            rw [hrw]
            rcases Nat.lt_or_ge j' 1 with hj0 | hj0
            · have hj'z : j' = 0 := by omega
              subst hj'z
              simpa [dropsIter] using Nat.lt_of_not_le hfit
            · exact hk4 j' hj0 (by omega)

/-- C6: during the budget enforcement's slice-drop phase, slices are dropped
one at a time in ascending (priority, then name) order — the recorded
DroppedSlices list is a prefix of the drop-sorted enabled-slice list, so a
slice is never dropped while a lower one remains; the last remaining enabled
slice is never dropped (at most length-1 drops); and dropping stops as soon
as a re-render fits: every shorter nonempty prefix rendered over budget. -/
theorem enforce_drop_order (fs : String → Option (List Nat)) (L : Limits)
    (plan : Plan) (pri : String → Int) (render : Plan → String)
    (hds : plan.DroppedSlices = []) (hnd : plan.EnabledSlices.Nodup) :
    ∃ k, k + 1 ≤ max 1 plan.EnabledSlices.length ∧
      (enforceGlobalBudget fs L plan pri render).1.DroppedSlices =
        (sortSlicesForDrop pri plan.EnabledSlices).take k ∧
      (∀ j, 1 ≤ j → j < k →
        L.MaxChars < runeCount (render (planAfterDrops plan pri j))) := by
  unfold enforceGlobalBudget
  dsimp only
  by_cases hfit : runeCount (render plan) ≤ L.MaxChars
  · rw [if_pos hfit]
    refine ⟨0, ?_, ?_, ?_⟩
    · have := Nat.le_max_left 1 plan.EnabledSlices.length
      omega
    · simpa using hds
    · intro j h1 h2
      omega
  · rw [if_neg hfit]
    have hsortnd : (sortSlicesForDrop pri plan.EnabledSlices).Nodup :=
      (List.perm_insertionSort (sliceBefore pri)
        plan.EnabledSlices).nodup_iff.mpr hnd
    have hsub : ∀ s ∈ sortSlicesForDrop pri plan.EnabledSlices,
        s ∈ plan.EnabledSlices.dedup := by
      intro s hs
      exact List.mem_dedup.mpr
        ((List.perm_insertionSort (sliceBefore pri)
          plan.EnabledSlices).mem_iff.mp hs)
    obtain ⟨k, hk1, hk2, hk3, hk4⟩ :=
      dropPhase_spec L render plan.Included
        (sortSlicesForDrop pri plan.EnabledSlices) plan.EnabledSlices.dedup
        { plan with PartialFlag := true, DroppedSlices := [] } hsortnd hsub
    have hdedup : plan.EnabledSlices.dedup = plan.EnabledSlices :=
      List.Nodup.dedup hnd
    refine ⟨k, ?_, ?_, ?_⟩
    · rw [hdedup] at hk2
      exact hk2
    · cases hdp : dropPhase L render plan.Included
          (sortSlicesForDrop pri plan.EnabledSlices) plan.EnabledSlices.dedup
          { plan with PartialFlag := true, DroppedSlices := [] } with
      | inl pr =>
        dsimp only
        rw [hdp] at hk3
        have h3 : pr.1 =
            (dropsIter plan.Included
              ((sortSlicesForDrop pri plan.EnabledSlices).take k)
              plan.EnabledSlices.dedup
              { plan with PartialFlag := true, DroppedSlices := [] }).1 := hk3
        rw [h3, dropsIter_dropped_slices]
        simp
      | inr p2 =>
        dsimp only
        rw [hdp] at hk3
        have hp2ds : p2.DroppedSlices =
            (sortSlicesForDrop pri plan.EnabledSlices).take k := by
          have h3 : p2 =
              (dropsIter plan.Included
                ((sortSlicesForDrop pri plan.EnabledSlices).take k)
                plan.EnabledSlices.dedup
                { plan with PartialFlag := true, DroppedSlices := [] }).1 :=
            hk3
          rw [h3, dropsIter_dropped_slices]
          simp
        split_ifs with hfit3 <;>
          dsimp only <;>
          rw [tightenPlan_dropped_slices] <;>
          exact hp2ds
    · intro j h1 h2
      have := hk4 j h1 h2
      simpa [planAfterDrops] using this

/-- Limits used in the drop-order witness. -/
def limitsW : Limits :=
  { MaxChars := 10, PerFileMaxLines := 10, PerFileMaxBytes := 100 }

/-- Two-slice plan used in the drop-order witness. -/
def planW : Plan :=
  { Profile := "p", EnabledSlices := ["api", "docs"],
    Included := [feOf "a" "api" 100, feOf "b" "docs" 1],
    Dropped := [], DroppedSlices := [], PartialFlag := false,
    HardCut := false }

/-- Priorities for the drop-order witness. -/
def priW : String → Int := fun s => if s = "api" then 100 else 1

/-- Renderer for the drop-order witness. -/
def renderW : Plan → String := fun p =>
  if p.Included.length ≤ 1 then "0123456789" else "0123456789AB"

/-- Witness for `enforce_drop_order` on the two-slice scenario. -/
theorem enforce_drop_order_witness :
    planW.DroppedSlices = [] ∧ planW.EnabledSlices.Nodup ∧
      (∃ k, k + 1 ≤ max 1 planW.EnabledSlices.length ∧
        (enforceGlobalBudget (fun _ => none) limitsW planW priW
            renderW).1.DroppedSlices =
          (sortSlicesForDrop priW planW.EnabledSlices).take k ∧
        (∀ j, 1 ≤ j → j < k →
          limitsW.MaxChars <
            runeCount (renderW (planAfterDrops planW priW j)))) :=
  ⟨rfl, by decide,
    enforce_drop_order (fun _ => none) limitsW planW priW renderW rfl
      (by decide)⟩

/-! ### C7: slice membership -/

lemma fold_append_filter {α : Type} (p : α → Bool) :
    ∀ (l : List α) (acc : List α),
      l.foldl (fun mem s => if p s then mem ++ [s] else mem) acc =
        acc ++ l.filter p := by
  intro l
  induction l with
  | nil => intro acc; simp
  | cons a t ih =>
    intro acc
    rw [List.foldl_cons, ih, List.filter_cons]
    by_cases hp : p a <;> simp [hp]

lemma sliceAccepts_iff (slices : String → SliceConfig) (rel : String)
    (ihid ich : Bool) (s : String) :
    sliceAccepts slices rel ihid ich s = true ↔
      (matchesAny rel (slices s).Include).1 = true ∧
        (ihid = false ∨ ich = true ∨
          (matchesAny rel (slices s).Include).2 = true) ∧
        (matchesAny rel (slices s).Exclude).1 = false := by
  unfold sliceAccepts
  dsimp only
  split_ifs with h1 h2 h3
  · simp [h1]
  · simp only [false_iff]
    rintro ⟨hinc, hpol, hexc⟩
    rcases hpol with hp | hp | hp <;> simp_all
  · simp only [false_iff]
    rintro ⟨hinc, hpol, hexc⟩
    simp_all
  · simp only [true_iff]
    refine ⟨?_, ?_, ?_⟩
    · rcases hi : (matchesAny rel (slices s).Include).1 with _ | _
      · exact absurd hi h1
      · rfl
    · by_cases hh : ihid = true
      · by_cases hc : ich = true
        · exact Or.inr (Or.inl hc)
        · right; right
          rcases he : (matchesAny rel (slices s).Include).2 with _ | _
          · exact absurd ⟨hh, by simpa using hc, he⟩ h2
          · rfl
      · exact Or.inl (by simpa using hh)
    · rcases he : (matchesAny rel (slices s).Exclude).1 with _ | _
      · rfl
      · exact absurd he h3

/-- C7: a path is a member of a slice iff some include glob matches, the
hidden policy allows it (not hidden, or hidden files allowed globally, or a
matching include pattern explicitly names a dot segment), and no exclude
glob matches; in particular the hidden file under .github gets no membership
from the lone include pattern star-star-slash-star with hidden files
disallowed, but is a member under the include pattern .github-slash-star-star. -/
theorem membership_characterization :
    (∀ (slices : String → SliceConfig) (enabled : List String)
        (rel : String) (ihid ich : Bool) (s0 : String),
      s0 ∈ membership slices enabled rel ihid ich ↔
        s0 ∈ enabled ∧ (matchesAny rel (slices s0).Include).1 = true ∧
          (ihid = false ∨ ich = true ∨
            (matchesAny rel (slices s0).Include).2 = true) ∧
          (matchesAny rel (slices s0).Exclude).1 = false) ∧
      membership (fun _ => ⟨["**/*"], [], 0⟩) ["ci"]
        ".github/workflows/ci.yml" true false = [] ∧
      membership (fun _ => ⟨[".github/**"], [], 0⟩) ["ci"]
        ".github/workflows/ci.yml" true false = ["ci"] := by
  refine ⟨?_, by decide, by decide⟩
  intro slices enabled rel ihid ich s0
  unfold membership
  dsimp only
  rw [(List.perm_insertionSort strBefore _).mem_iff]
  rw [fold_append_filter]
  simp only [List.nil_append, List.mem_filter]
  rw [sliceAccepts_iff]
